import Mathlib

set_option linter.unusedSectionVars false

/-!
Shallow embedding of the persistent data-structure library:
an AVL ordered map (`src/avl.rs`), a prefix trie with bag storage
(`src/trie.rs`), and a hash-addressed map built on the trie
(`src/hashmap.rs`).  The reference-counted handles of the source are
semantically transparent, so they are erased; everything else follows
the source code line by line.
-/

namespace Prust

/-- AVL node: `Empty` or `Node{key, value, left, right}` (src/avl.rs). -/
inductive AVL (K V : Type) : Type where
  | Empty : AVL K V
  | Node (key : K) (value : V) (left : AVL K V) (right : AVL K V) : AVL K V
deriving DecidableEq, Repr

namespace AVL

variable {K V : Type} [LinearOrder K]

/-- The empty tree (src/avl.rs `empty`). -/
def empty : AVL K V := .Empty

/-- Emptiness test (src/avl.rs `is_empty`). -/
def isEmpty : AVL K V → Bool
  | .Empty => true
  | .Node _ _ _ _ => false

/-- Height as computed by the code (src/avl.rs `height`):
`Empty` has height 0, a node has height `1 + max` of the children.
The source returns `i64`; heights are bounded by the node count, so
plain `Int` is a faithful model. -/
def height : AVL K V → Int
  | .Empty => 0
  | .Node _ _ l r => 1 + max l.height r.height

/-- Balance factor (src/avl.rs `diff`): `height(left) - height(right)`. -/
def diff : AVL K V → Int
  | .Empty => 0
  | .Node _ _ l r => l.height - r.height

/-- Lookup by key (src/avl.rs `find`): descend by three-way comparison. -/
def find : AVL K V → K → Option V
  | .Empty, _ => none
  | .Node k v l r, target =>
    if target < k then l.find target
    else if k < target then r.find target
    else some v

/-- Right rotation (src/avl.rs `right_rotation`); identity when the
shape does not match (the source returns a clone of itself). -/
def right_rotation : AVL K V → AVL K V
  | .Node x vx (.Node y vy t1 t2) t3 => .Node y vy t1 (.Node x vx t2 t3)
  | t => t

/-- Left rotation (src/avl.rs `left_rotation`). -/
def left_rotation : AVL K V → AVL K V
  | .Node x vx t1 (.Node y vy t2 t3) => .Node y vy (.Node x vx t1 t2) t3
  | t => t

/-- src/avl.rs `right_fix`: double-rotate when the left child leans
right, else single right rotation. -/
def right_fix : AVL K V → AVL K V
  | .Node x vx t1 t2 =>
    if t1.diff = -1 then (AVL.Node x vx t1.left_rotation t2).right_rotation
    else (AVL.Node x vx t1 t2).right_rotation
  | t => t

/-- src/avl.rs `left_fix`: mirror image of `right_fix`. -/
def left_fix : AVL K V → AVL K V
  | .Node x vx t1 t2 =>
    if t2.diff = 1 then (AVL.Node x vx t1 t2.right_rotation).left_rotation
    else (AVL.Node x vx t1 t2).left_rotation
  | t => t

/-- src/avl.rs `fix`: dispatch on the balance factor. -/
def fix (t : AVL K V) : AVL K V :=
  if t.diff = 2 then t.right_fix
  else if t.diff = -2 then t.left_fix
  else t

/-- src/avl.rs `put_rc`/`put`: insert or replace, rebalancing on the way
up.  On an exact match the node is rebuilt with the new key and value and
the untouched children (no `fix`, as in the source). -/
def put : AVL K V → K → V → AVL K V
  | .Empty, k, v => .Node k v .Empty .Empty
  | .Node k' v' l r, k, v =>
    if k < k' then (AVL.Node k' v' (l.put k v) r).fix
    else if k' < k then (AVL.Node k' v' l (r.put k v)).fix
    else .Node k v l r

/-- src/avl.rs `find_max`: key/value of the rightmost node. -/
def find_max : AVL K V → Option (K × V)
  | .Empty => none
  | .Node k v _ r => if r.isEmpty then some (k, v) else r.find_max

/-- src/avl.rs `delete`: standard AVL deletion using the in-order
predecessor on a two-child match. -/
def delete : AVL K V → K → AVL K V
  | .Empty, _ => .Empty
  | .Node k' v' l r, k =>
    if k < k' then (AVL.Node k' v' (l.delete k) r).fix
    else if k' < k then (AVL.Node k' v' l (r.delete k)).fix
    else if l.isEmpty then r
    else if r.isEmpty then l
    else
      match l.find_max with
      | some (pk, pv) => (AVL.Node pk pv (l.delete pk) r).fix
      | none => .Node k' v' l r

/-- Set-form insert (src/avl.rs `insert`). -/
def insertS (t : AVL K Unit) (k : K) : AVL K Unit := t.put k ()

/-- Set-form membership (src/avl.rs `search`). -/
def search (t : AVL K V) (k : K) : Bool := (t.find k).isSome

/-- Every node of the tree satisfies the AVL balance bound
`|height(left) - height(right)| <= 1`. -/
def balancedB : AVL K V → Bool
  | .Empty => true
  | .Node _ _ l r =>
    decide (-1 ≤ l.height - r.height) && decide (l.height - r.height ≤ 1)
      && l.balancedB && r.balancedB

/-- In-order traversal as a key/value list. -/
def inorder : AVL K V → List (K × V)
  | .Empty => []
  | .Node k v l r => l.inorder ++ (k, v) :: r.inorder

/-- The in-order key sequence. -/
def keyList (t : AVL K V) : List K := t.inorder.map Prod.fst

/-- The trees reachable from `empty` by finite sequences of `put` and
`delete`. -/
inductive Reachable : AVL K V → Prop where
  | empty : Reachable AVL.empty
  | put {t : AVL K V} (k : K) (v : V) : Reachable t → Reachable (t.put k v)
  | delete {t : AVL K V} (k : K) : Reachable t → Reachable (t.delete k)

/-- Modelled from the spec wording of the height claim: the number of
edges on the longest root-to-leaf path, with `Empty` assigned `-1` so
that a single node has edge height `0`. -/
def edgeHeight : AVL K V → Int
  | .Empty => -1
  | .Node _ _ l r => 1 + max l.edgeHeight r.edgeHeight

/-! ### Arithmetic helpers -/

theorem max_eq_or (a b : Int) :
    (max a b = a ∨ max a b = b) ∧ a ≤ max a b ∧ b ≤ max a b :=
  ⟨max_choice a b, le_max_left a b, le_max_right a b⟩

/-! ### Height and balance lemmas -/

theorem height_nonneg (t : AVL K V) : 0 ≤ t.height := by
  induction t with
  | Empty => simp [height]
  | Node k v l r ihl ihr =>
    have h := max_eq_or l.height r.height
    simp only [height]
    omega

theorem height_node (k : K) (v : V) (l r : AVL K V) :
    (AVL.Node k v l r).height = 1 + max l.height r.height := rfl

theorem diff_node (k : K) (v : V) (l r : AVL K V) :
    (AVL.Node k v l r).diff = l.height - r.height := rfl

theorem balancedB_node {k : K} {v : V} {l r : AVL K V} :
    (AVL.Node k v l r).balancedB = true ↔
      (-1 ≤ l.height - r.height ∧ l.height - r.height ≤ 1) ∧
        l.balancedB = true ∧ r.balancedB = true := by
  simp [balancedB, and_assoc]

theorem fix_id {t : AVL K V} (h1 : t.diff ≠ 2) (h2 : t.diff ≠ -2) :
    t.fix = t := by
  simp [fix, h1, h2]

theorem fix_two {t : AVL K V} (h : t.diff = 2) : t.fix = t.right_fix := by
  simp [fix, h]

theorem fix_neg_two {t : AVL K V} (h : t.diff = -2) : t.fix = t.left_fix := by
  simp [fix, h]

theorem right_fix_spec {x : K} {vx : V} {l r : AVL K V}
    (hbl : l.balancedB = true) (hbr : r.balancedB = true)
    (hh : l.height = r.height + 2) :
    ((AVL.Node x vx l r).right_fix).balancedB = true ∧
      (((AVL.Node x vx l r).right_fix).height = r.height + 2 ∨
        ((AVL.Node x vx l r).right_fix).height = r.height + 3) := by
  have hr0 := height_nonneg r
  cases l with
  | Empty => exfalso; simp [height] at hh; omega
  | Node y vy a b =>
    rw [balancedB_node] at hbl
    obtain ⟨⟨hd1, hd2⟩, hba, hbb⟩ := hbl
    have ha0 := height_nonneg a
    have hb0 := height_nonneg b
    have hmab := max_eq_or a.height b.height
    rw [height_node] at hh
    by_cases hd : (AVL.Node y vy a b).diff = -1
    · rw [diff_node] at hd
      have hbpos : 0 < b.height := by omega
      cases b with
      | Empty => exfalso; simp [height] at hbpos
      | Node z vz c d =>
        rw [balancedB_node] at hbb
        obtain ⟨⟨he1, he2⟩, hbc, hbd⟩ := hbb
        have hc0 := height_nonneg c
        have hd0 := height_nonneg d
        have hmcd := max_eq_or c.height d.height
        rw [height_node] at hd hh hbpos
        have hmac := max_eq_or a.height c.height
        have hmdr := max_eq_or d.height r.height
        have hmtop :=
          max_eq_or (1 + max a.height c.height) (1 + max d.height r.height)
        simp only [right_fix, diff_node, height_node, if_pos hd, left_rotation,
          right_rotation]
        constructor
        · simp only [balancedB_node, height_node]
          refine ⟨?_, ⟨?_, hba, hbc⟩, ⟨?_, hbd, hbr⟩⟩ <;> constructor <;> omega
        · omega
    · rw [diff_node] at hd
      simp only [right_fix, diff_node, if_neg hd, right_rotation]
      have hmbr := max_eq_or b.height r.height
      have hmtop := max_eq_or a.height (1 + max b.height r.height)
      constructor
      · simp only [balancedB_node, height_node]
        refine ⟨?_, hba, ⟨?_, hbb, hbr⟩⟩ <;> constructor <;> omega
      · simp only [height_node]
        omega

theorem left_fix_spec {x : K} {vx : V} {l r : AVL K V}
    (hbl : l.balancedB = true) (hbr : r.balancedB = true)
    (hh : r.height = l.height + 2) :
    ((AVL.Node x vx l r).left_fix).balancedB = true ∧
      (((AVL.Node x vx l r).left_fix).height = l.height + 2 ∨
        ((AVL.Node x vx l r).left_fix).height = l.height + 3) := by
  have hl0 := height_nonneg l
  cases r with
  | Empty => exfalso; simp [height] at hh; omega
  | Node y vy a b =>
    rw [balancedB_node] at hbr
    obtain ⟨⟨hd1, hd2⟩, hba, hbb⟩ := hbr
    have ha0 := height_nonneg a
    have hb0 := height_nonneg b
    have hmab := max_eq_or a.height b.height
    rw [height_node] at hh
    by_cases hd : (AVL.Node y vy a b).diff = 1
    · rw [diff_node] at hd
      have hapos : 0 < a.height := by omega
      cases a with
      | Empty => exfalso; simp [height] at hapos
      | Node z vz c d =>
        rw [balancedB_node] at hba
        obtain ⟨⟨he1, he2⟩, hbc, hbd⟩ := hba
        have hc0 := height_nonneg c
        have hd0 := height_nonneg d
        have hmcd := max_eq_or c.height d.height
        rw [height_node] at hd hh hapos
        have hmlc := max_eq_or l.height c.height
        have hmdb := max_eq_or d.height b.height
        have hmtop :=
          max_eq_or (1 + max l.height c.height) (1 + max d.height b.height)
        simp only [left_fix, diff_node, height_node, if_pos hd, right_rotation,
          left_rotation]
        constructor
        · simp only [balancedB_node, height_node]
          refine ⟨?_, ⟨?_, hbl, hbc⟩, ⟨?_, hbd, hbb⟩⟩ <;> constructor <;> omega
        · omega
    · rw [diff_node] at hd
      simp only [left_fix, diff_node, if_neg hd, left_rotation]
      have hmla := max_eq_or l.height a.height
      have hmtop := max_eq_or (1 + max l.height a.height) b.height
      constructor
      · simp only [balancedB_node, height_node]
        refine ⟨?_, ⟨?_, hbl, hba⟩, hbb⟩ <;> constructor <;> omega
      · simp only [height_node]
        omega

theorem fix_spec (k' : K) (v' : V) (l r : AVL K V)
    (hbl : l.balancedB = true) (hbr : r.balancedB = true)
    (h1 : -2 ≤ l.height - r.height) (h2 : l.height - r.height ≤ 2) :
    ((AVL.Node k' v' l r).fix).balancedB = true ∧
      (((AVL.Node k' v' l r).fix).height = 1 + max l.height r.height ∨
        (((AVL.Node k' v' l r).fix).height = max l.height r.height ∧
          (l.height - r.height = 2 ∨ l.height - r.height = -2))) := by
  have hm := max_eq_or l.height r.height
  by_cases hd : (AVL.Node k' v' l r).diff = 2
  · rw [fix_two hd]
    rw [diff_node] at hd
    obtain ⟨b, hh⟩ := right_fix_spec hbl hbr (by omega)
    exact ⟨b, by omega⟩
  · by_cases hd' : (AVL.Node k' v' l r).diff = -2
    · rw [fix_neg_two hd']
      rw [diff_node] at hd'
      obtain ⟨b, hh⟩ := left_fix_spec hbl hbr (by omega)
      exact ⟨b, by omega⟩
    · rw [fix_id hd hd']
      rw [diff_node] at hd hd'
      constructor
      · rw [balancedB_node]
        exact ⟨⟨by omega, by omega⟩, hbl, hbr⟩
      · left
        rw [height_node]

theorem put_spec (t : AVL K V) (k : K) (v : V) (hb : t.balancedB = true) :
    (t.put k v).balancedB = true ∧
      ((t.put k v).height = t.height ∨ (t.put k v).height = t.height + 1) := by
  induction t with
  | Empty =>
    constructor
    · rfl
    · right; simp [put, height]
  | Node k' v' l r ihl ihr =>
    rw [balancedB_node] at hb
    obtain ⟨⟨h1, h2⟩, hbl, hbr⟩ := hb
    have hl0 := height_nonneg l
    have hr0 := height_nonneg r
    have hm := max_eq_or l.height r.height
    simp only [put]
    by_cases hklt : k < k'
    · rw [if_pos hklt]
      obtain ⟨ihb, ihh⟩ := ihl hbl
      have hm' := max_eq_or (l.put k v).height r.height
      obtain ⟨bfix, hfix⟩ :=
        fix_spec k' v' (l.put k v) r ihb hbr (by omega) (by omega)
      refine ⟨bfix, ?_⟩
      rw [height_node]
      omega
    · rw [if_neg hklt]
      by_cases hkgt : k' < k
      · rw [if_pos hkgt]
        obtain ⟨ihb, ihh⟩ := ihr hbr
        have hm' := max_eq_or l.height (r.put k v).height
        obtain ⟨bfix, hfix⟩ :=
          fix_spec k' v' l (r.put k v) hbl ihb (by omega) (by omega)
        refine ⟨bfix, ?_⟩
        rw [height_node]
        omega
      · rw [if_neg hkgt]
        constructor
        · rw [balancedB_node]
          exact ⟨⟨h1, h2⟩, hbl, hbr⟩
        · left
          rw [height_node, height_node]

theorem find_max_isSome :
    ∀ {t : AVL K V}, t.isEmpty = false → ∃ p, t.find_max = some p := by
  intro t
  induction t with
  | Empty => intro h; simp [isEmpty] at h
  | Node k v l r ihl ihr =>
    intro _
    by_cases hre : r.isEmpty = true
    · exact ⟨(k, v), by simp [find_max, hre]⟩
    · obtain ⟨p, hp⟩ := ihr (by simpa using hre)
      exact ⟨p, by simp [find_max, hre, hp]⟩

theorem delete_spec (t : AVL K V) (k : K) (hb : t.balancedB = true) :
    (t.delete k).balancedB = true ∧
      ((t.delete k).height = t.height ∨ (t.delete k).height = t.height - 1) := by
  induction t generalizing k with
  | Empty => exact ⟨rfl, Or.inl rfl⟩
  | Node k' v' l r ihl ihr =>
    rw [balancedB_node] at hb
    obtain ⟨⟨h1, h2⟩, hbl, hbr⟩ := hb
    have hl0 := height_nonneg l
    have hr0 := height_nonneg r
    have hm := max_eq_or l.height r.height
    simp only [delete]
    by_cases hklt : k < k'
    · rw [if_pos hklt]
      obtain ⟨ihb, ihh⟩ := ihl k hbl
      have hm' := max_eq_or (l.delete k).height r.height
      obtain ⟨bfix, hfix⟩ :=
        fix_spec k' v' (l.delete k) r ihb hbr (by omega) (by omega)
      refine ⟨bfix, ?_⟩
      rw [height_node]
      omega
    · rw [if_neg hklt]
      by_cases hkgt : k' < k
      · rw [if_pos hkgt]
        obtain ⟨ihb, ihh⟩ := ihr k hbr
        have hm' := max_eq_or l.height (r.delete k).height
        obtain ⟨bfix, hfix⟩ :=
          fix_spec k' v' l (r.delete k) hbl ihb (by omega) (by omega)
        refine ⟨bfix, ?_⟩
        rw [height_node]
        omega
      · rw [if_neg hkgt]
        cases l with
        | Empty =>
          simp only [isEmpty, if_true]
          refine ⟨hbr, ?_⟩
          rw [height_node]
          have hE : (AVL.Empty : AVL K V).height = 0 := rfl
          omega
        | Node lk lv ll lr =>
          simp only [isEmpty, Bool.false_eq_true, if_false]
          cases r with
          | Empty =>
            simp only [isEmpty, if_true]
            refine ⟨hbl, ?_⟩
            rw [height_node k' v' (AVL.Node lk lv ll lr) AVL.Empty]
            have hE : (AVL.Empty : AVL K V).height = 0 := rfl
            omega
          | Node rk rv rl rr =>
            simp only [isEmpty, Bool.false_eq_true, if_false]
            obtain ⟨⟨pk, pv⟩, hfm⟩ :=
              find_max_isSome (t := AVL.Node lk lv ll lr) rfl
            simp only [hfm]
            obtain ⟨ihb, ihh⟩ := ihl pk hbl
            have hm' :=
              max_eq_or ((AVL.Node lk lv ll lr).delete pk).height
                (AVL.Node rk rv rl rr).height
            obtain ⟨bfix, hfix⟩ :=
              fix_spec pk pv ((AVL.Node lk lv ll lr).delete pk)
                (AVL.Node rk rv rl rr) ihb hbr (by omega) (by omega)
            refine ⟨bfix, ?_⟩
            rw [height_node]
            omega

/-! ### In-order traversal is preserved by rotations -/

theorem inorder_right_rotation (t : AVL K V) :
    t.right_rotation.inorder = t.inorder := by
  cases t with
  | Empty => rfl
  | Node x vx l r =>
    cases l with
    | Empty => rfl
    | Node y vy t1 t2 => simp [right_rotation, inorder]

theorem inorder_left_rotation (t : AVL K V) :
    t.left_rotation.inorder = t.inorder := by
  cases t with
  | Empty => rfl
  | Node x vx l r =>
    cases r with
    | Empty => rfl
    | Node y vy t1 t2 => simp [left_rotation, inorder]

theorem inorder_right_fix (t : AVL K V) : t.right_fix.inorder = t.inorder := by
  cases t with
  | Empty => rfl
  | Node x vx l r =>
    simp only [right_fix]
    split
    · rw [inorder_right_rotation]
      simp [inorder, inorder_left_rotation]
    · rw [inorder_right_rotation]

theorem inorder_left_fix (t : AVL K V) : t.left_fix.inorder = t.inorder := by
  cases t with
  | Empty => rfl
  | Node x vx l r =>
    simp only [left_fix]
    split
    · rw [inorder_left_rotation]
      simp [inorder, inorder_right_rotation]
    · rw [inorder_left_rotation]

theorem inorder_fix (t : AVL K V) : t.fix.inorder = t.inorder := by
  unfold fix
  split
  · rw [inorder_right_fix]
  · split
    · rw [inorder_left_fix]
    · rfl

/-! ### Sorted association lists: first-match lookup, sorted insert,
first-match erase -/

/-- First-match lookup in an association list, as a linear scan. -/
def lookupA (k : K) : List (K × V) → Option V
  | [] => none
  | (a, b) :: tl => if a = k then some b else lookupA k tl

/-- Insertion into a key-sorted association list, replacing an equal key. -/
def insertSorted (k : K) (v : V) : List (K × V) → List (K × V)
  | [] => [(k, v)]
  | (a, b) :: tl =>
    if k < a then (k, v) :: (a, b) :: tl
    else if a < k then (a, b) :: insertSorted k v tl
    else (k, v) :: tl

/-- Remove the first entry with the given key, if any. -/
def eraseK (k : K) : List (K × V) → List (K × V)
  | [] => []
  | (a, b) :: tl => if a = k then tl else (a, b) :: eraseK k tl

theorem lookupA_eq_none_of_not_mem {k : K} {M : List (K × V)}
    (h : k ∉ M.map Prod.fst) : lookupA k M = none := by
  induction M with
  | nil => rfl
  | cons hd tl ih =>
    obtain ⟨a, b⟩ := hd
    simp only [List.map_cons, List.mem_cons, not_or] at h
    have hak : ¬a = k := fun hc => h.1 hc.symm
    simp [lookupA, hak, ih h.2]

theorem lookupA_append_right {k : K} {L M : List (K × V)}
    (h : k ∉ L.map Prod.fst) : lookupA k (L ++ M) = lookupA k M := by
  induction L with
  | nil => rfl
  | cons hd tl ih =>
    obtain ⟨a, b⟩ := hd
    simp only [List.map_cons, List.mem_cons, not_or] at h
    have hak : ¬a = k := fun hc => h.1 hc.symm
    simp [lookupA, hak, ih h.2]

theorem lookupA_append_left {k : K} {L M : List (K × V)}
    (h : k ∉ M.map Prod.fst) : lookupA k (L ++ M) = lookupA k L := by
  induction L with
  | nil => exact lookupA_eq_none_of_not_mem h
  | cons hd tl ih =>
    obtain ⟨a, b⟩ := hd
    by_cases hak : a = k
    · simp [lookupA, hak]
    · simp [lookupA, hak, ih]

theorem lookupA_insertSorted_self (k : K) (v : V) (L : List (K × V)) :
    lookupA k (insertSorted k v L) = some v := by
  induction L with
  | nil => simp [insertSorted, lookupA]
  | cons hd tl ih =>
    obtain ⟨a, b⟩ := hd
    by_cases h1 : k < a
    · simp [insertSorted, lookupA, h1]
    · by_cases h2 : a < k
      · simp [insertSorted, lookupA, h1, h2, ne_of_lt h2, ih]
      · simp [insertSorted, lookupA, h1, h2]

theorem lookupA_insertSorted_ne {k' k : K} (v : V) (L : List (K × V))
    (hne : k' ≠ k) : lookupA k' (insertSorted k v L) = lookupA k' L := by
  induction L with
  | nil => simp [insertSorted, lookupA, hne.symm]
  | cons hd tl ih =>
    obtain ⟨a, b⟩ := hd
    by_cases h1 : k < a
    · simp [insertSorted, lookupA, h1, hne.symm]
    · by_cases h2 : a < k
      · simp [insertSorted, lookupA, h1, h2, ih]
      · have hak : a = k := le_antisymm (not_lt.mp h1) (not_lt.mp h2)
        subst hak
        simp [insertSorted, lookupA, h1, h2, hne.symm,
          fun hc : a = k' => hne hc.symm]

theorem insertSorted_append_lt {k a : K} (v : V) (b : V)
    (L R : List (K × V)) (hka : k < a) :
    insertSorted k v (L ++ (a, b) :: R) = insertSorted k v L ++ (a, b) :: R := by
  induction L with
  | nil => simp [insertSorted, hka]
  | cons hd tl ih =>
    obtain ⟨c, d⟩ := hd
    by_cases h1 : k < c
    · simp [insertSorted, h1]
    · by_cases h2 : c < k
      · simp [insertSorted, h1, h2, ih]
      · simp [insertSorted, h1, h2]

theorem insertSorted_append_gt {k a : K} (v : V) (b : V)
    {L : List (K × V)} (R : List (K × V)) (hak : a < k)
    (hL : ∀ c ∈ L.map Prod.fst, c < k) :
    insertSorted k v (L ++ (a, b) :: R) = L ++ (a, b) :: insertSorted k v R := by
  induction L with
  | nil => simp [insertSorted, lt_asymm hak, hak]
  | cons hd tl ih =>
    obtain ⟨c, d⟩ := hd
    have hck : c < k := hL c (by simp)
    have ih' := ih (fun c hc => hL c (by simp [hc]))
    simp [insertSorted, lt_asymm hck, hck, ih']

theorem insertSorted_append_eq {k : K} (v : V) (b : V)
    {L : List (K × V)} (R : List (K × V))
    (hL : ∀ c ∈ L.map Prod.fst, c < k) :
    insertSorted k v (L ++ (k, b) :: R) = L ++ (k, v) :: R := by
  induction L with
  | nil => simp [insertSorted, lt_irrefl]
  | cons hd tl ih =>
    obtain ⟨c, d⟩ := hd
    have hck : c < k := hL c (by simp)
    have ih' := ih (fun c hc => hL c (by simp [hc]))
    simp [insertSorted, lt_asymm hck, hck, ih']

theorem mem_keys_insertSorted {c k : K} {v : V} {L : List (K × V)}
    (h : c ∈ (insertSorted k v L).map Prod.fst) :
    c = k ∨ c ∈ L.map Prod.fst := by
  induction L with
  | nil => simpa [insertSorted] using h
  | cons hd tl ih =>
    obtain ⟨a, b⟩ := hd
    by_cases h1 : k < a
    · simp only [insertSorted, if_pos h1] at h
      simpa using h
    · by_cases h2 : a < k
      · simp only [insertSorted, if_neg h1, if_pos h2, List.map_cons,
          List.mem_cons] at h
        rcases h with h | h
        · simp [h]
        · rcases ih h with h' | h'
          · exact Or.inl h'
          · simp [h']
      · simp only [insertSorted, if_neg h1, if_neg h2, List.map_cons,
          List.mem_cons] at h
        rcases h with h | h
        · exact Or.inl h
        · simp [h]

theorem pairwise_insertSorted {k : K} {v : V} {L : List (K × V)}
    (h : (L.map Prod.fst).Pairwise (· < ·)) :
    ((insertSorted k v L).map Prod.fst).Pairwise (· < ·) := by
  induction L with
  | nil => simp [insertSorted]
  | cons hd tl ih =>
    obtain ⟨a, b⟩ := hd
    simp only [List.map_cons, List.pairwise_cons] at h
    obtain ⟨ha, htl⟩ := h
    by_cases h1 : k < a
    · simp only [insertSorted, if_pos h1, List.map_cons, List.pairwise_cons]
      refine ⟨?_, ?_, htl⟩
      · intro x hx
        rcases List.mem_cons.mp hx with rfl | hx'
        · exact h1
        · exact lt_trans h1 (ha x hx')
      · exact ha
    · by_cases h2 : a < k
      · simp only [insertSorted, if_neg h1, if_pos h2, List.map_cons,
          List.pairwise_cons]
        refine ⟨?_, ih htl⟩
        intro x hx
        rcases mem_keys_insertSorted hx with rfl | hx'
        · exact h2
        · exact ha x hx'
      · have hak : a = k := le_antisymm (not_lt.mp h1) (not_lt.mp h2)
        subst hak
        simp only [insertSorted, if_neg h1, if_neg h2, List.map_cons,
          List.pairwise_cons]
        exact ⟨ha, htl⟩

theorem eraseK_append_right {k : K} {M : List (K × V)} (L : List (K × V))
    (h : k ∉ M.map Prod.fst) : eraseK k (L ++ M) = eraseK k L ++ M := by
  induction L with
  | nil =>
    simp only [List.nil_append, eraseK]
    induction M with
    | nil => rfl
    | cons hd tl ih =>
      obtain ⟨a, b⟩ := hd
      simp only [List.map_cons, List.mem_cons, not_or] at h
      have hak : ¬a = k := fun hc => h.1 hc.symm
      simp [eraseK, hak, ih h.2]
  | cons hd tl ih =>
    obtain ⟨a, b⟩ := hd
    by_cases hak : a = k
    · simp [eraseK, hak]
    · simp [eraseK, hak, ih]

theorem eraseK_append_left {k : K} {L : List (K × V)} (M : List (K × V))
    (h : k ∉ L.map Prod.fst) : eraseK k (L ++ M) = L ++ eraseK k M := by
  induction L with
  | nil => rfl
  | cons hd tl ih =>
    obtain ⟨a, b⟩ := hd
    simp only [List.map_cons, List.mem_cons, not_or] at h
    have hak : ¬a = k := fun hc => h.1 hc.symm
    simp [eraseK, hak, ih h.2]

theorem eraseK_snoc_self {k : K} {M : List (K × V)} (b : V)
    (h : ∀ c ∈ M.map Prod.fst, c ≠ k) : eraseK k (M ++ [(k, b)]) = M := by
  induction M with
  | nil => simp [eraseK]
  | cons hd tl ih =>
    obtain ⟨a, d⟩ := hd
    have ha : a ≠ k := h a (by simp)
    have ih' := ih (fun c hc => h c (by simp [hc]))
    simp [eraseK, ha, ih']

theorem keys_eraseK_sublist (k : K) (L : List (K × V)) :
    ((eraseK k L).map Prod.fst).Sublist (L.map Prod.fst) := by
  induction L with
  | nil => simp [eraseK]
  | cons hd tl ih =>
    obtain ⟨a, b⟩ := hd
    by_cases hak : a = k
    · simp only [eraseK, if_pos hak, List.map_cons]
      exact (List.sublist_cons_self a (tl.map Prod.fst))
    · simp only [eraseK, if_neg hak, List.map_cons]
      exact ih.cons₂ a

theorem lookupA_eraseK_ne {k' k : K} (L : List (K × V)) (hne : k' ≠ k) :
    lookupA k' (eraseK k L) = lookupA k' L := by
  induction L with
  | nil => rfl
  | cons hd tl ih =>
    obtain ⟨a, b⟩ := hd
    by_cases hak : a = k
    · have h2 : ¬a = k' := fun hc => hne ((hc.symm.trans hak))
      simp [eraseK, lookupA, hak, h2, hne.symm]
    · by_cases hak' : a = k'
      · simp [eraseK, lookupA, hak, hak', hne]
      · simp [eraseK, lookupA, hak, hak', ih]

theorem lookupA_eraseK_self {k : K} {L : List (K × V)}
    (hs : (L.map Prod.fst).Pairwise (· < ·)) :
    lookupA k (eraseK k L) = none := by
  induction L with
  | nil => rfl
  | cons hd tl ih =>
    obtain ⟨a, b⟩ := hd
    simp only [List.map_cons, List.pairwise_cons] at hs
    obtain ⟨ha, htl⟩ := hs
    by_cases hak : a = k
    · subst hak
      simp only [eraseK, if_pos rfl]
      refine lookupA_eq_none_of_not_mem ?_
      intro hmem
      exact lt_irrefl a (ha a hmem)
    · simp [lookupA, eraseK, hak, ih htl]

/-! ### The tree operations refine operations on sorted association
lists -/

theorem keyList_def (t : AVL K V) : t.keyList = t.inorder.map Prod.fst := rfl

theorem sorted_node {k' : K} {v' : V} {l r : AVL K V}
    (hs : ((AVL.Node k' v' l r).keyList).Pairwise (· < ·)) :
    l.keyList.Pairwise (· < ·) ∧ r.keyList.Pairwise (· < ·) ∧
      (∀ c ∈ l.keyList, c < k') ∧ (∀ c ∈ r.keyList, k' < c) := by
  rw [keyList_def] at hs
  simp only [inorder, List.map_append, List.map_cons] at hs
  rw [List.pairwise_append] at hs
  obtain ⟨hl, hr', hcross⟩ := hs
  rw [List.pairwise_cons] at hr'
  obtain ⟨hk'r, hr⟩ := hr'
  refine ⟨hl, hr, ?_, hk'r⟩
  intro c hc
  exact hcross c hc k' (by simp)

theorem find_eq_lookupA {t : AVL K V} (hs : t.keyList.Pairwise (· < ·))
    (k : K) : t.find k = lookupA k t.inorder := by
  induction t with
  | Empty => rfl
  | Node k' v' l r ihl ihr =>
    obtain ⟨hsl, hsr, hlk, hkr⟩ := sorted_node hs
    simp only [find, inorder]
    by_cases h1 : k < k'
    · have hM : k ∉ ((k', v') :: r.inorder).map Prod.fst := by
        simp only [List.map_cons, List.mem_cons, not_or]
        exact ⟨ne_of_lt h1, fun hmem => lt_asymm h1 (hkr k hmem)⟩
      rw [if_pos h1, ihl hsl, lookupA_append_left hM]
    · by_cases h2 : k' < k
      · have hL : k ∉ l.inorder.map Prod.fst :=
          fun hmem => lt_asymm h2 (hlk k hmem)
        rw [if_neg h1, if_pos h2, ihr hsr, lookupA_append_right hL]
        simp [lookupA, ne_of_lt h2]
      · have heq : k = k' := le_antisymm (not_lt.mp h2) (not_lt.mp h1)
        have hL : k ∉ l.inorder.map Prod.fst :=
          fun hmem => lt_irrefl k' (heq ▸ hlk k hmem)
        rw [if_neg h1, if_neg h2, lookupA_append_right hL]
        simp [lookupA, heq.symm]

theorem inorder_put {t : AVL K V} (k : K) (v : V)
    (hs : t.keyList.Pairwise (· < ·)) :
    (t.put k v).inorder = insertSorted k v t.inorder := by
  induction t with
  | Empty => rfl
  | Node k' v' l r ihl ihr =>
    obtain ⟨hsl, hsr, hlk, hkr⟩ := sorted_node hs
    simp only [put]
    by_cases h1 : k < k'
    · rw [if_pos h1, inorder_fix]
      simp only [inorder]
      rw [ihl hsl, insertSorted_append_lt v v' l.inorder r.inorder h1]
    · by_cases h2 : k' < k
      · rw [if_neg h1, if_pos h2, inorder_fix]
        simp only [inorder]
        rw [ihr hsr,
          insertSorted_append_gt v v' r.inorder h2
            (fun c hc => lt_trans (hlk c hc) h2)]
      · have heq : k = k' := le_antisymm (not_lt.mp h2) (not_lt.mp h1)
        subst heq
        rw [if_neg h1, if_neg h2]
        simp only [inorder]
        rw [insertSorted_append_eq v v' r.inorder hlk]

theorem keyList_put_pairwise (t : AVL K V) (k : K) (v : V)
    (hs : t.keyList.Pairwise (· < ·)) :
    ((t.put k v).keyList).Pairwise (· < ·) := by
  rw [keyList_def, inorder_put k v hs]
  exact pairwise_insertSorted hs

theorem getLast?_cons_of_ne_nil {α : Type} (a : α) {l : List α}
    (h : l ≠ []) : (a :: l).getLast? = l.getLast? := by
  have h2 : a :: l = [a] ++ l := rfl
  rw [h2, List.getLast?_append_of_ne_nil _ h]

theorem inorder_ne_nil {k : K} {v : V} {l r : AVL K V} :
    (AVL.Node k v l r).inorder ≠ [] := by
  simp [inorder]

theorem find_max_eq_getLast? (t : AVL K V) :
    t.find_max = t.inorder.getLast? := by
  induction t with
  | Empty => rfl
  | Node k v l r ihl ihr =>
    cases r with
    | Empty =>
      simp only [find_max, isEmpty, if_true, inorder]
      simp [List.getLast?_concat]
    | Node rk rv rl rr =>
      have hstep : (AVL.Node k v l (AVL.Node rk rv rl rr)).find_max =
          (AVL.Node rk rv rl rr).find_max := rfl
      rw [hstep, ihr]
      have h2 : (AVL.Node k v l (AVL.Node rk rv rl rr)).inorder =
          l.inorder ++ (k, v) :: (AVL.Node rk rv rl rr).inorder := rfl
      rw [h2, List.getLast?_append_of_ne_nil _ (List.cons_ne_nil _ _),
        getLast?_cons_of_ne_nil _ inorder_ne_nil]

theorem inorder_delete {t : AVL K V} (k : K)
    (hs : t.keyList.Pairwise (· < ·)) :
    (t.delete k).inorder = eraseK k t.inorder := by
  induction t generalizing k with
  | Empty => rfl
  | Node k' v' l r ihl ihr =>
    obtain ⟨hsl, hsr, hlk, hkr⟩ := sorted_node hs
    simp only [delete]
    by_cases h1 : k < k'
    · have hM : k ∉ ((k', v') :: r.inorder).map Prod.fst := by
        simp only [List.map_cons, List.mem_cons, not_or]
        exact ⟨ne_of_lt h1, fun hmem => lt_asymm h1 (hkr k hmem)⟩
      rw [if_pos h1, inorder_fix]
      simp only [inorder]
      rw [ihl k hsl, eraseK_append_right l.inorder hM]
    · by_cases h2 : k' < k
      · have hL : k ∉ l.inorder.map Prod.fst :=
          fun hmem => lt_asymm h2 (hlk k hmem)
        rw [if_neg h1, if_pos h2, inorder_fix]
        simp only [inorder]
        rw [ihr k hsr, eraseK_append_left _ hL]
        have h3 : eraseK k ((k', v') :: r.inorder) =
            (k', v') :: eraseK k r.inorder := by
          simp [eraseK, ne_of_lt h2]
        rw [h3]
      · have heq : k = k' := le_antisymm (not_lt.mp h2) (not_lt.mp h1)
        subst heq
        rw [if_neg h1, if_neg h2]
        have hL : k ∉ l.inorder.map Prod.fst :=
          fun hmem => lt_irrefl k (hlk k hmem)
        cases l with
        | Empty =>
          simp only [isEmpty, if_true, inorder, List.nil_append]
          simp [eraseK]
        | Node lk lv ll lr =>
          simp only [isEmpty, Bool.false_eq_true, if_false]
          cases r with
          | Empty =>
            simp only [isEmpty, if_true]
            have h5 : (AVL.Node k v' (AVL.Node lk lv ll lr) AVL.Empty).inorder
                = (AVL.Node lk lv ll lr).inorder ++ [(k, v')] := rfl
            rw [h5, eraseK_append_left _ hL]
            simp [eraseK]
          | Node rk rv rl rr =>
            simp only [isEmpty, Bool.false_eq_true, if_false]
            rcases List.eq_nil_or_concat ((AVL.Node lk lv ll lr).inorder)
              with hnil | ⟨M, p, hM⟩
            · exact absurd hnil inorder_ne_nil
            · obtain ⟨pk, pv⟩ := p
              rw [List.concat_eq_append] at hM
              have hfm : (AVL.Node lk lv ll lr).find_max = some (pk, pv) := by
                rw [find_max_eq_getLast?, hM, List.getLast?_concat]
              simp only [hfm]
              rw [inorder_fix]
              have hLHS : (AVL.Node pk pv
                    ((AVL.Node lk lv ll lr).delete pk)
                    (AVL.Node rk rv rl rr)).inorder =
                  ((AVL.Node lk lv ll lr).delete pk).inorder ++
                    (pk, pv) :: (AVL.Node rk rv rl rr).inorder := rfl
              have hRHS : (AVL.Node k v' (AVL.Node lk lv ll lr)
                    (AVL.Node rk rv rl rr)).inorder =
                  (AVL.Node lk lv ll lr).inorder ++
                    (k, v') :: (AVL.Node rk rv rl rr).inorder := rfl
              rw [hLHS, hRHS, ihl pk hsl]
              have hMk : ∀ c ∈ M.map Prod.fst, c ≠ pk := by
                intro c hc
                have hsl' := hsl
                rw [keyList_def, hM, List.map_append,
                  List.pairwise_append] at hsl'
                obtain ⟨_, _, hcr⟩ := hsl'
                exact ne_of_lt (hcr c hc pk (by simp))
              rw [hM] at hL
              rw [hM, eraseK_snoc_self pv hMk, eraseK_append_left _ hL]
              have h4 : eraseK k ((k, v') :: (AVL.Node rk rv rl rr).inorder) =
                  (AVL.Node rk rv rl rr).inorder := by
                simp [eraseK]
              rw [h4, List.append_assoc]
              simp

theorem keyList_delete_pairwise (t : AVL K V) (k : K)
    (hs : t.keyList.Pairwise (· < ·)) :
    ((t.delete k).keyList).Pairwise (· < ·) := by
  rw [keyList_def, inorder_delete k hs]
  exact hs.sublist (keys_eraseK_sublist k t.inorder)

theorem find_put_model (t : AVL K V) (k : K) (v : V) (k' : K)
    (hs : t.keyList.Pairwise (· < ·)) :
    (t.put k v).find k' = if k' = k then some v else t.find k' := by
  have hsp := keyList_put_pairwise t k v hs
  rw [find_eq_lookupA hsp k', inorder_put k v hs]
  by_cases h : k' = k
  · subst h
    rw [if_pos rfl, lookupA_insertSorted_self]
  · rw [if_neg h, lookupA_insertSorted_ne v t.inorder h,
      ← find_eq_lookupA hs k']

theorem find_delete_model (t : AVL K V) (k k' : K)
    (hs : t.keyList.Pairwise (· < ·)) :
    (t.delete k).find k' = if k' = k then none else t.find k' := by
  have hsd := keyList_delete_pairwise t k hs
  rw [find_eq_lookupA hsd k', inorder_delete k hs]
  by_cases h : k' = k
  · subst h
    rw [if_pos rfl]
    exact lookupA_eraseK_self hs
  · rw [if_neg h, lookupA_eraseK_ne t.inorder h, ← find_eq_lookupA hs k']

end AVL

/-! ## Trie (src/trie.rs)

A node holds `stored_value` (the bag of values terminating at this
node's path) and `adjecent_nodes` (an ordered child list, searched
linearly, at most one child per symbol kept by construction).  The
reference-counted handles are erased.  Value equality in the source is
`PartialEq`, modelled by a `BEq` instance. -/

inductive Trie (T U : Type) : Type where
  | mk (stored_value : List U) (adjecent_nodes : List (T × Trie T U)) :
      Trie T U

namespace Trie

variable {T U : Type} [DecidableEq T] [BEq U]

/-- The bag of values stored at this node (src/trie.rs `stored_value`). -/
def stored_value : Trie T U → List U
  | ⟨sv, _⟩ => sv

/-- The ordered child list (src/trie.rs `adjecent_nodes`). -/
def adjecent_nodes : Trie T U → List (T × Trie T U)
  | ⟨_, adj⟩ => adj

/-- src/trie.rs `empty` / `empty_store`: no symbols, no stored values. -/
def empty : Trie T U := ⟨[], []⟩

/-- The source's insert loop over `adjecent_nodes`: replace the first
child keyed by `h` using `f`; if none exists, push `(h, d)` at the end. -/
def updChild (h : T) (f : Trie T U → Trie T U) (d : Trie T U) :
    List (T × Trie T U) → List (T × Trie T U)
  | [] => [(h, d)]
  | (k, c) :: rest =>
    if k = h then (k, f c) :: rest else (k, c) :: updChild h f d rest

/-- src/trie.rs `insert_store`: walk/extend the path, appending the
value to the terminal node's bag. -/
def insert_store : Trie T U → List T → U → Trie T U
  | t, [], st => ⟨t.stored_value ++ [st], t.adjecent_nodes⟩
  | t, h :: tl, st =>
    ⟨t.stored_value,
      updChild h (fun c => c.insert_store tl st)
        (insert_store ⟨[], []⟩ tl st) t.adjecent_nodes⟩

/-- The source's lookup loop over `adjecent_nodes`: first child keyed
by `h`, if any. -/
def findChild (h : T) : List (T × Trie T U) → Option (Trie T U)
  | [] => none
  | (k, c) :: rest => if k = h then some c else findChild h rest

/-- src/trie.rs `get_store`: `none` on a missing child or an empty
terminal bag, otherwise the full bag in order. -/
def get_store : Trie T U → List T → Option (List U)
  | t, [] => if t.stored_value.isEmpty then none else some t.stored_value
  | t, h :: tl =>
    match findChild h t.adjecent_nodes with
    | some c => c.get_store tl
    | none => none

/-- The source's delete loop over `adjecent_nodes`: rebuild the first
child keyed by `h` through the fallible `f`, propagating `none`. -/
def delChild (h : T) (f : Trie T U → Option (Trie T U)) :
    List (T × Trie T U) → Option (List (T × Trie T U))
  | [] => none
  | (k, c) :: rest =>
    if k = h then (f c).map (fun c' => (k, c') :: rest)
    else (delChild h f rest).map (fun rest' => (k, c) :: rest')

/-- src/trie.rs `delete_store`: at the terminal node the source runs
`retain(|v| v != store)` over the bag and returns `none` when the
length is unchanged; on the way down a missing child or failing
recursion yields `none`. -/
def delete_store : Trie T U → List T → U → Option (Trie T U)
  | t, [], st =>
    let sv' := t.stored_value.filter (fun v => !(v == st))
    if t.stored_value.length = sv'.length then none
    else some ⟨sv', t.adjecent_nodes⟩
  | t, h :: tl, st =>
    (delChild h (fun c => c.delete_store tl st) t.adjecent_nodes).map
      (fun adj' => (⟨t.stored_value, adj'⟩ : Trie T U))

/-- The subtrie reached by following a path, if every symbol has a
child. -/
def subtrie? : Trie T U → List T → Option (Trie T U)
  | t, [] => some t
  | t, h :: tl =>
    match findChild h t.adjecent_nodes with
    | some c => c.subtrie? tl
    | none => none

/-- The bag stored at the end of a path; `[]` when the path is absent. -/
def bagAt (t : Trie T U) (p : List T) : List U :=
  match t.subtrie? p with
  | some n => n.stored_value
  | none => []

/-- The ordered list of child symbols at the end of a path, if the path
exists: the trie's node structure is determined by this observation. -/
def childSyms (t : Trie T U) (p : List T) : Option (List T) :=
  (t.subtrie? p).map (fun n => n.adjecent_nodes.map Prod.fst)

/-- Boolean convenience layer (src/trie.rs `insert`). -/
def insertB (t : Trie T Bool) (p : List T) : Trie T Bool :=
  t.insert_store p true

/-- Boolean convenience layer (src/trie.rs `search`). -/
def search (t : Trie T Bool) (p : List T) : Bool :=
  (t.get_store p).isSome

/-- Boolean convenience layer (src/trie.rs `delete`). -/
def deleteB (t : Trie T Bool) (p : List T) : Option (Trie T Bool) :=
  t.delete_store p true

end Trie

/-! ## Hash-addressed map (src/hashmap.rs)

`DefaultHasher` is an environment capability: the map is parametric in
a deterministic 64-bit hash function `hashFn`, and every theorem below
holds for all such functions. -/

/-- src/hashmap.rs `KeyValue`: entry whose `PartialEq` compares the key
alone, ignoring the value. -/
structure KeyValue (K V : Type) : Type where
  key : K
  value : Option V

instance {K V : Type} [DecidableEq K] : BEq (KeyValue K V) :=
  ⟨fun a b => decide (a.key = b.key)⟩

/-- src/hashmap.rs `HashMap`: a trie over boolean symbols storing
key/value entries. -/
structure HashMap (K V : Type) : Type where
  trie : Trie Bool (KeyValue K V)

namespace HashMap

variable {K V : Type} [DecidableEq K]

/-- src/hashmap.rs `get_bits`: bit `i` of the key's 64-bit hash, for
`i` in `0..64`, least-significant first. -/
def getBits (hashFn : K → Nat) (k : K) : List Bool :=
  (List.range 64).map (fun i => Nat.testBit (hashFn k) i)

/-- src/hashmap.rs `new`. -/
def new : HashMap K V := ⟨Trie.empty⟩

/-- src/hashmap.rs `put`: append a key/value entry at the hash path;
no pre-existing entry with the same key is removed. -/
def put (hashFn : K → Nat) (m : HashMap K V) (k : K) (v : V) :
    HashMap K V :=
  ⟨m.trie.insert_store (getBits hashFn k) ⟨k, some v⟩⟩

/-- src/hashmap.rs `get`: fetch the bag at the hash path and linearly
scan for the first entry whose key compares equal. -/
def get (hashFn : K → Nat) (m : HashMap K V) (k : K) : Option V :=
  match m.trie.get_store (getBits hashFn k) with
  | none => none
  | some store =>
    (store.find? (fun kv => decide (k = kv.key))).bind (fun kv => kv.value)

/-- src/hashmap.rs `delete`: trie deletion with a key-only-equal target
entry. -/
def delete (hashFn : K → Nat) (m : HashMap K V) (k : K) :
    Option (HashMap K V) :=
  (m.trie.delete_store (getBits hashFn k) ⟨k, none⟩).map (fun t => ⟨t⟩)

end HashMap

namespace Trie

variable {T U : Type} [DecidableEq T] [BEq U]

/-! ### Child-list lemmas -/

theorem findChild_updChild_found {h : T} {l : List (T × Trie T U)}
    {c : Trie T U} (f : Trie T U → Trie T U) (d : Trie T U)
    (hfc : findChild h l = some c) :
    findChild h (updChild h f d l) = some (f c) := by
  induction l with
  | nil => simp [findChild] at hfc
  | cons hd rest ih =>
    obtain ⟨k, c0⟩ := hd
    by_cases hk : k = h
    · simp only [findChild, if_pos hk] at hfc
      obtain rfl := Option.some.inj hfc
      simp [updChild, findChild, hk]
    · simp only [findChild, if_neg hk] at hfc
      simp [updChild, findChild, hk, ih hfc]

theorem findChild_updChild_notfound {h : T} {l : List (T × Trie T U)}
    (f : Trie T U → Trie T U) (d : Trie T U)
    (hfc : findChild h l = none) :
    findChild h (updChild h f d l) = some d := by
  induction l with
  | nil => simp [updChild, findChild]
  | cons hd rest ih =>
    obtain ⟨k, c0⟩ := hd
    by_cases hk : k = h
    · simp [findChild, hk] at hfc
    · simp only [findChild, if_neg hk] at hfc
      simp [updChild, findChild, hk, ih hfc]

theorem findChild_updChild_ne {h h2 : T} (l : List (T × Trie T U))
    (f : Trie T U → Trie T U) (d : Trie T U) (hne : h2 ≠ h) :
    findChild h2 (updChild h f d l) = findChild h2 l := by
  induction l with
  | nil =>
    have : ¬h = h2 := fun hc => hne hc.symm
    simp [updChild, findChild, this]
  | cons hd rest ih =>
    obtain ⟨k, c0⟩ := hd
    by_cases hk : k = h
    · have hh2 : ¬h = h2 := fun hc => hne hc.symm
      simp [updChild, findChild, hk, hh2]
    · by_cases hk2 : k = h2
      · simp [updChild, findChild, hk, hk2, hne]
      · simp [updChild, findChild, hk, hk2, ih]

theorem keys_updChild_found {h : T} {l : List (T × Trie T U)}
    {c : Trie T U} (f : Trie T U → Trie T U) (d : Trie T U)
    (hfc : findChild h l = some c) :
    (updChild h f d l).map Prod.fst = l.map Prod.fst := by
  induction l with
  | nil => simp [findChild] at hfc
  | cons hd rest ih =>
    obtain ⟨k, c0⟩ := hd
    by_cases hk : k = h
    · simp [updChild, hk]
    · simp only [findChild, if_neg hk] at hfc
      simp [updChild, hk, ih hfc]

theorem delChild_found {h : T} {l : List (T × Trie T U)} {c : Trie T U}
    (f : Trie T U → Option (Trie T U)) (hfc : findChild h l = some c) :
    delChild h f l = (f c).map (fun c' => updChild h (fun _ => c') c l) := by
  induction l with
  | nil => simp [findChild] at hfc
  | cons hd rest ih =>
    obtain ⟨k, c0⟩ := hd
    by_cases hk : k = h
    · simp only [findChild, if_pos hk] at hfc
      obtain rfl := Option.some.inj hfc
      cases hv : f c0 <;> simp [delChild, updChild, hk, hv]
    · simp only [findChild, if_neg hk] at hfc
      cases hv : f c <;> simp [delChild, updChild, hk, hv, ih hfc]

theorem delChild_notfound {h : T} {l : List (T × Trie T U)}
    (f : Trie T U → Option (Trie T U)) (hfc : findChild h l = none) :
    delChild h f l = none := by
  induction l with
  | nil => rfl
  | cons hd rest ih =>
    obtain ⟨k, c0⟩ := hd
    by_cases hk : k = h
    · simp [findChild, hk] at hfc
    · simp only [findChild, if_neg hk] at hfc
      simp [delChild, hk, ih hfc]

/-! ### Path observations -/

theorem subtrie?_cons (t : Trie T U) (h : T) (tl : List T) :
    t.subtrie? (h :: tl) =
      match findChild h t.adjecent_nodes with
      | some c => c.subtrie? tl
      | none => none := rfl

theorem bagAt_nil (t : Trie T U) : bagAt t [] = t.stored_value := rfl

theorem bagAt_cons_some {t c : Trie T U} {h : T} (tl : List T)
    (hfc : findChild h t.adjecent_nodes = some c) :
    bagAt t (h :: tl) = bagAt c tl := by
  simp only [bagAt, subtrie?_cons, hfc]

theorem bagAt_cons_none {t : Trie T U} {h : T} (tl : List T)
    (hfc : findChild h t.adjecent_nodes = none) :
    bagAt t (h :: tl) = [] := by
  simp only [bagAt, subtrie?_cons, hfc]

theorem bagAt_empty (p : List T) : bagAt (empty : Trie T U) p = [] := by
  cases p with
  | nil => rfl
  | cons h tl => rfl

theorem childSyms_nil (t : Trie T U) :
    childSyms t [] = some (t.adjecent_nodes.map Prod.fst) := rfl

theorem childSyms_cons_some {t c : Trie T U} {h : T} (tl : List T)
    (hfc : findChild h t.adjecent_nodes = some c) :
    childSyms t (h :: tl) = childSyms c tl := by
  simp only [childSyms, subtrie?_cons, hfc]

theorem childSyms_cons_none {t : Trie T U} {h : T} (tl : List T)
    (hfc : findChild h t.adjecent_nodes = none) :
    childSyms t (h :: tl) = none := by
  simp only [childSyms, subtrie?_cons, hfc]
  rfl

/-! ### get_store against the bag observation -/

theorem get_store_eq_bagAt (t : Trie T U) (p : List T) :
    t.get_store p =
      if (bagAt t p).isEmpty then none else some (bagAt t p) := by
  induction p generalizing t with
  | nil => rfl
  | cons h tl ih =>
    cases hfc : findChild h t.adjecent_nodes with
    | none => simp [get_store, hfc, bagAt_cons_none tl hfc]
    | some c =>
      rw [bagAt_cons_some tl hfc]
      simp only [get_store, hfc]
      exact ih c

/-! ### insert_store appends to the terminal bag -/

theorem bagAt_insert_store (t : Trie T U) (p : List T) (st : U) :
    bagAt (t.insert_store p st) p = bagAt t p ++ [st] := by
  induction p generalizing t with
  | nil => rfl
  | cons h tl ih =>
    cases hfc : findChild h t.adjecent_nodes with
    | some c =>
      have h1 : findChild h ((t.insert_store (h :: tl) st).adjecent_nodes) =
          some (c.insert_store tl st) := by
        simp only [insert_store, adjecent_nodes]
        exact findChild_updChild_found _ _ hfc
      rw [bagAt_cons_some tl h1, ih c, bagAt_cons_some tl hfc]
    | none =>
      have h1 : findChild h ((t.insert_store (h :: tl) st).adjecent_nodes) =
          some (insert_store ⟨[], []⟩ tl st) := by
        simp only [insert_store, adjecent_nodes]
        exact findChild_updChild_notfound _ _ hfc
      rw [bagAt_cons_some tl h1, ih ⟨[], []⟩, bagAt_cons_none tl hfc]
      have h2 : bagAt (⟨[], []⟩ : Trie T U) tl = [] := bagAt_empty tl
      rw [h2]

/-! ### delete_store: failure condition -/

theorem filter_length_eq_iff {α : Type} (p : α → Bool) (l : List α) :
    (l.filter p).length = l.length ↔ ∀ x ∈ l, p x = true := by
  induction l with
  | nil => simp
  | cons a tl ih =>
    by_cases hp : p a = true
    · simp [hp, ih]
    · have hp' : p a = false := by
        cases hpa : p a
        · rfl
        · exact absurd hpa hp
      have hle := List.length_filter_le p tl
      simp only [List.filter_cons, hp', Bool.false_eq_true, if_false,
        List.length_cons]
      constructor
      · intro hlen
        exfalso
        omega
      · intro hall
        exact absurd (hall a (by simp)) hp

theorem delete_store_none_iff (t : Trie T U) (p : List T) (st : U) :
    t.delete_store p st = none ↔ ∀ u ∈ bagAt t p, (u == st) = false := by
  induction p generalizing t with
  | nil =>
    simp only [delete_store, bagAt_nil]
    constructor
    · intro hnone
      by_cases hc : t.stored_value.length =
          (t.stored_value.filter (fun v => !(v == st))).length
      · intro u hu
        have := (filter_length_eq_iff (fun v => !(v == st))
          t.stored_value).mp hc.symm u hu
        simpa using this
      · rw [if_neg hc] at hnone
        exact absurd hnone (by simp)
    · intro hall
      have hc : (t.stored_value.filter (fun v => !(v == st))).length =
          t.stored_value.length := by
        rw [filter_length_eq_iff]
        intro x hx
        simp [hall x hx]
      rw [if_pos hc.symm]
  | cons h tl ih =>
    cases hfc : findChild h t.adjecent_nodes with
    | none =>
      simp only [delete_store, delChild_notfound _ hfc, Option.map_none',
        bagAt_cons_none tl hfc]
      simp
    | some c =>
      simp only [delete_store, delChild_found _ hfc,
        bagAt_cons_some tl hfc]
      rw [← ih c]
      cases hrec : c.delete_store tl st <;> simp [hrec]

/-! ### delete_store: success behaviour -/

theorem childSyms_congr {t1 t2 : Trie T U}
    (hadj : t1.adjecent_nodes = t2.adjecent_nodes) (q : List T) :
    childSyms t1 q = childSyms t2 q := by
  cases q with
  | nil => simp [childSyms_nil, hadj]
  | cons h tl =>
    cases hfc : findChild h t2.adjecent_nodes with
    | some c =>
      rw [childSyms_cons_some tl (hadj.symm ▸ hfc), childSyms_cons_some tl hfc]
    | none =>
      rw [childSyms_cons_none tl (hadj.symm ▸ hfc), childSyms_cons_none tl hfc]

theorem bagAt_congr {t1 t2 : Trie T U}
    (hadj : t1.adjecent_nodes = t2.adjecent_nodes) (q : List T)
    (hq : q ≠ []) : bagAt t1 q = bagAt t2 q := by
  cases q with
  | nil => exact absurd rfl hq
  | cons h tl =>
    cases hfc : findChild h t2.adjecent_nodes with
    | some c =>
      rw [bagAt_cons_some tl (hadj.symm ▸ hfc), bagAt_cons_some tl hfc]
    | none =>
      rw [bagAt_cons_none tl (hadj.symm ▸ hfc), bagAt_cons_none tl hfc]

theorem delete_store_some_spec {t t' : Trie T U} {p : List T} {st : U}
    (hdel : t.delete_store p st = some t') :
    (∀ q, childSyms t' q = childSyms t q) ∧
      bagAt t' p = (bagAt t p).filter (fun u => !(u == st)) ∧
      (∀ q, q ≠ p → bagAt t' q = bagAt t q) := by
  induction p generalizing t t' with
  | nil =>
    simp only [delete_store] at hdel
    by_cases hc : t.stored_value.length =
        (t.stored_value.filter (fun v => !(v == st))).length
    · rw [if_pos hc] at hdel
      exact absurd hdel (by simp)
    · rw [if_neg hc] at hdel
      obtain rfl := Option.some.inj hdel
      have hadj : (Trie.mk (t.stored_value.filter (fun v => !(v == st)))
          t.adjecent_nodes).adjecent_nodes = t.adjecent_nodes := rfl
      exact ⟨fun q => childSyms_congr hadj q, rfl,
        fun q hq => bagAt_congr hadj q hq⟩
  | cons h tl ih =>
    simp only [delete_store] at hdel
    cases hfc : findChild h t.adjecent_nodes with
    | none =>
      rw [delChild_notfound _ hfc] at hdel
      exact absurd hdel (by simp)
    | some c =>
      rw [delChild_found _ hfc] at hdel
      cases hrec : c.delete_store tl st with
      | none =>
        rw [hrec] at hdel
        exact absurd hdel (by simp)
      | some c' =>
        rw [hrec] at hdel
        rw [show ((some c').map
              (fun c'2 => updChild h (fun _ => c'2) c t.adjecent_nodes)).map
              (fun adj' => (⟨t.stored_value, adj'⟩ : Trie T U)) =
            some ⟨t.stored_value,
              updChild h (fun _ => c') c t.adjecent_nodes⟩ from rfl] at hdel
        obtain rfl := Option.some.inj hdel
        obtain ⟨ihsyms, ihbag, ihframe⟩ := ih hrec
        have hfN : findChild h (Trie.mk t.stored_value
              (updChild h (fun _ => c') c t.adjecent_nodes)).adjecent_nodes =
            some c' := findChild_updChild_found _ _ hfc
        refine ⟨?_, ?_, ?_⟩
        · intro q
          cases q with
          | nil =>
            simp only [childSyms_nil]
            congr 1
            exact keys_updChild_found _ _ hfc
          | cons h2 q' =>
            by_cases hh : h2 = h
            · subst hh
              rw [childSyms_cons_some q' hfN, childSyms_cons_some q' hfc]
              exact ihsyms q'
            · have hne : findChild h2 (updChild h (fun _ => c') c
                    t.adjecent_nodes) = findChild h2 t.adjecent_nodes :=
                findChild_updChild_ne _ _ _ hh
              cases hfc2 : findChild h2 t.adjecent_nodes with
              | some c2 =>
                rw [childSyms_cons_some q' (hne.trans hfc2),
                  childSyms_cons_some q' hfc2]
              | none =>
                rw [childSyms_cons_none q' (hne.trans hfc2),
                  childSyms_cons_none q' hfc2]
        · rw [bagAt_cons_some tl hfN, bagAt_cons_some tl hfc]
          exact ihbag
        · intro q hq
          cases q with
          | nil => rfl
          | cons h2 q' =>
            by_cases hh : h2 = h
            · subst hh
              have hq' : q' ≠ tl := fun hc => hq (by rw [hc])
              rw [bagAt_cons_some q' hfN, bagAt_cons_some q' hfc]
              exact ihframe q' hq'
            · have hne : findChild h2 (updChild h (fun _ => c') c
                    t.adjecent_nodes) = findChild h2 t.adjecent_nodes :=
                findChild_updChild_ne _ _ _ hh
              cases hfc2 : findChild h2 t.adjecent_nodes with
              | some c2 =>
                rw [bagAt_cons_some q' (hne.trans hfc2),
                  bagAt_cons_some q' hfc2]
              | none =>
                rw [bagAt_cons_none q' (hne.trans hfc2),
                  bagAt_cons_none q' hfc2]

end Trie

namespace HashMap

variable {K V : Type} [DecidableEq K]

/-- `get` is exactly a first-match scan, in bag order, of the bag at the
key's hash path. -/
theorem get_eq_bag_scan (hashFn : K → Nat) (m : HashMap K V) (k : K) :
    get hashFn m k =
      ((Trie.bagAt m.trie (getBits hashFn k)).find?
        (fun kv => decide (k = kv.key))).bind (fun kv => kv.value) := by
  simp only [get]
  rw [Trie.get_store_eq_bagAt]
  by_cases hb : (Trie.bagAt m.trie (getBits hashFn k)).isEmpty
  · rw [if_pos hb]
    have hnil : Trie.bagAt m.trie (getBits hashFn k) = [] :=
      List.isEmpty_iff.mp hb
    rw [hnil]
    rfl
  · rw [if_neg hb]

/-- `put` appends its entry at the end of the bag at the key's hash
path, removing nothing. -/
theorem put_bag (hashFn : K → Nat) (m : HashMap K V) (k : K) (v : V) :
    Trie.bagAt (put hashFn m k v).trie (getBits hashFn k) =
      Trie.bagAt m.trie (getBits hashFn k) ++
        [(⟨k, some v⟩ : KeyValue K V)] :=
  Trie.bagAt_insert_store m.trie (getBits hashFn k) ⟨k, some v⟩

theorem find?_bag_put_isSome (hashFn : K → Nat) (m : HashMap K V)
    (k : K) (v : V) :
    ((Trie.bagAt (put hashFn m k v).trie (getBits hashFn k)).find?
      (fun kv => decide (k = kv.key))).isSome = true := by
  rw [put_bag, List.find?_append]
  cases hfb : (Trie.bagAt m.trie (getBits hashFn k)).find?
      (fun kv => decide (k = kv.key)) with
  | some kv => rfl
  | none => simp [List.find?]

/-- A second `put` of the same key does not change the result of `get`
for that key: the scan stops at the earlier match. -/
theorem get_put_put (hashFn : K → Nat) (m : HashMap K V) (k : K)
    (v1 v2 : V) :
    get hashFn (put hashFn (put hashFn m k v1) k v2) k =
      get hashFn (put hashFn m k v1) k := by
  rw [get_eq_bag_scan, get_eq_bag_scan,
    put_bag hashFn (put hashFn m k v1) k v2, List.find?_append]
  obtain ⟨kv0, hkv0⟩ := Option.isSome_iff_exists.mp
    (find?_bag_put_isSome hashFn m k v1)
  rw [hkv0]
  rfl

/-- On a fresh map, the first inserted value is the one `get` returns,
whatever is re-`put` afterwards. -/
theorem get_put_put_new (hashFn : K → Nat) (k : K) (v1 v2 : V) :
    get hashFn (put hashFn (put hashFn (new : HashMap K V) k v1) k v2) k =
      some v1 := by
  rw [get_put_put, get_eq_bag_scan, put_bag]
  have hnil : Trie.bagAt (new : HashMap K V).trie (getBits hashFn k) = [] :=
    Trie.bagAt_empty (getBits hashFn k)
  rw [hnil]
  simp [List.find?]

end HashMap

/-! ## Claims -/

namespace AVL

/-- C2: every AVL tree reachable from `empty()` by a finite sequence of
`put` and `delete` operations satisfies
`|height(left) - height(right)| <= 1` at every node. -/
theorem c2_reachable_balanced {K V : Type} [LinearOrder K] (t : AVL K V)
    (h : Reachable t) : t.balancedB = true := by
  induction h with
  | empty => rfl
  | put k v _ ih => exact (put_spec _ k v ih).1
  | delete k _ ih => exact (delete_spec _ k ih).1

theorem c2_reachable_balanced_witness :
    ((((AVL.empty : AVL Int Int).put 1 10).put 2 20).delete 1).balancedB
      = true :=
  c2_reachable_balanced _
    (Reachable.delete 1 (Reachable.put 2 20 (Reachable.put 1 10
      Reachable.empty)))

/-- C3: on any tree satisfying the binary-search-tree invariant (the
data-model invariant every AVL tree maintains), `put(k, v)` followed by
`find(k)` returns `Some v`. -/
theorem c3_put_find_roundtrip {K V : Type} [LinearOrder K] (t : AVL K V)
    (k : K) (v : V) (hs : t.keyList.Pairwise (· < ·)) :
    (t.put k v).find k = some v := by
  rw [find_put_model t k v k hs, if_pos rfl]

theorem c3_put_find_roundtrip_witness :
    ((AVL.empty : AVL Int Int).keyList.Pairwise (· < ·)) ∧
      ((AVL.empty : AVL Int Int).put 3 7).find 3 = some 7 :=
  ⟨by decide, c3_put_find_roundtrip _ 3 7 (by decide)⟩

/-- C4: on any tree satisfying the binary-search-tree invariant,
`put(k, v)` then `delete(k)` makes `find(k)` return `None`, while every
other key's mapping in the post-`put` tree is preserved. -/
theorem c4_delete_correctness {K V : Type} [LinearOrder K] (t : AVL K V)
    (k : K) (v : V) (k2 : K) (hs : t.keyList.Pairwise (· < ·))
    (hne : k2 ≠ k) :
    ((t.put k v).delete k).find k = none ∧
      ((t.put k v).delete k).find k2 = (t.put k v).find k2 := by
  have hsp := keyList_put_pairwise t k v hs
  constructor
  · rw [find_delete_model _ k k hsp, if_pos rfl]
  · rw [find_delete_model _ k k2 hsp, if_neg hne]

theorem c4_delete_correctness_witness :
    (((AVL.empty : AVL Int Int).put 1 5).delete 1).find 1 = none ∧
      (((AVL.empty : AVL Int Int).put 1 5).delete 1).find 2 =
        ((AVL.empty : AVL Int Int).put 1 5).find 2 :=
  c4_delete_correctness _ 1 5 2 (by decide) (by decide)

/-- C5: the in-order key sequence of every AVL tree reachable from
`empty()` by `put` and `delete` operations is strictly ascending. -/
theorem c5_reachable_inorder_sorted {K V : Type} [LinearOrder K]
    (t : AVL K V) (h : Reachable t) : t.keyList.Pairwise (· < ·) := by
  induction h with
  | empty => exact List.Pairwise.nil
  | put k v _ ih => exact keyList_put_pairwise _ k v ih
  | delete k _ ih => exact keyList_delete_pairwise _ k ih

theorem c5_reachable_inorder_sorted_witness :
    ((((AVL.empty : AVL Int Int).put 2 20).put 1 10).delete
      2).keyList.Pairwise (· < ·) :=
  c5_reachable_inorder_sorted _
    (Reachable.delete 2 (Reachable.put 1 10 (Reachable.put 2 20
      Reachable.empty)))

/-- C8 counterexample: the height function used by the balance
computation gives a single-node tree height 1, not the longest
root-to-leaf edge count 0 claimed by the spec (`edgeHeight` below is
that edge count). -/
theorem c8_counterexample :
    ((AVL.empty : AVL Int Int).put 0 0).height = 1 ∧
      ((AVL.empty : AVL Int Int).put 0 0).edgeHeight = 0 := by
  constructor <;> decide

/-- C8 (amended): the code's height counts the nodes on the longest
root-to-leaf path — it is the edge count plus one on every tree (with
`Empty` at 0), so a single-node tree has height 1 — and `diff` equals
`height(left) - height(right)` as claimed. -/
theorem c8_height_nodes_diff {K V : Type} [LinearOrder K] :
    (∀ t : AVL K V, t.height = t.edgeHeight + 1) ∧
      (∀ (k : K) (v : V) (l r : AVL K V),
        (AVL.Node k v l r).diff = l.height - r.height) := by
  constructor
  · intro t
    induction t with
    | Empty => rfl
    | Node k v l r ihl ihr =>
      rw [height_node, ihl, ihr]
      have h1 : (AVL.Node k v l r).edgeHeight =
          1 + max l.edgeHeight r.edgeHeight := rfl
      rw [h1, max_add_add_right]
      ring
  · intro k v l r
    rfl

/-- C9: deleting a key that `find` reports absent is total by
construction (`delete` returns a tree, never an error value) and leaves
every key's mapping unchanged, on any tree satisfying the
binary-search-tree invariant. -/
theorem c9_delete_absent_noop {K V : Type} [LinearOrder K] (t : AVL K V)
    (k k2 : K) (hs : t.keyList.Pairwise (· < ·))
    (hnone : t.find k = none) : (t.delete k).find k2 = t.find k2 := by
  rw [find_delete_model t k k2 hs]
  by_cases h : k2 = k
  · subst h
    rw [if_pos rfl, hnone]
  · rw [if_neg h]

theorem c9_delete_absent_noop_witness :
    (((AVL.empty : AVL Int Int).put 1 10).delete 5).find 1 =
      ((AVL.empty : AVL Int Int).put 1 10).find 1 :=
  c9_delete_absent_noop _ 5 1 (by decide) (by decide)

end AVL

namespace Trie

/-- C1 counterexample: with two entries equal to the target in the
terminal bag, `delete_store` removes both of them, not exactly one
(first match) as claimed: the bag `[1, 1]` becomes `[]` where the claim
predicts `[1]`. -/
theorem c1_counterexample :
    ((Trie.empty.insert_store ([] : List Bool) (1 : Int)).insert_store []
        1).stored_value = [1, 1] ∧
      (((Trie.empty.insert_store ([] : List Bool) (1 : Int)).insert_store
          [] 1).delete_store [] 1).map stored_value = some [] := by
  constructor <;> rfl

/-- C7: `get_store` returns `none` exactly when some symbol on the path
has no child (`subtrie?` fails) or the terminal node's bag is empty;
otherwise it returns precisely the entries stored at that exact path,
in bag order; the empty path addresses the root node's own bag. -/
theorem c7_get_store_spec {T U : Type} [DecidableEq T] [BEq U]
    (t : Trie T U) (p : List T) :
    (t.get_store p = none ↔
      t.subtrie? p = none ∨
        ∃ n, t.subtrie? p = some n ∧ n.stored_value = []) ∧
    (∀ l, t.get_store p = some l → l = bagAt t p ∧ l ≠ []) ∧
    bagAt t [] = t.stored_value := by
  rw [get_store_eq_bagAt]
  refine ⟨?_, ?_, rfl⟩
  · constructor
    · intro h
      by_cases hb : (bagAt t p).isEmpty
      · have hnil := List.isEmpty_iff.mp hb
        cases hsub : t.subtrie? p with
        | none => exact Or.inl rfl
        | some n =>
          refine Or.inr ⟨n, rfl, ?_⟩
          have h2 : bagAt t p = n.stored_value := by simp [bagAt, hsub]
          rw [← h2]
          exact hnil
      · rw [if_neg hb] at h
        exact absurd h (by simp)
    · intro h
      have hnil : bagAt t p = [] := by
        cases h with
        | inl h1 => simp [bagAt, h1]
        | inr h2 =>
          obtain ⟨n, hsub, hsv⟩ := h2
          simp [bagAt, hsub, hsv]
      rw [hnil]
      rfl
  · intro l hl
    by_cases hb : (bagAt t p).isEmpty
    · rw [if_pos hb] at hl
      exact absurd hl (by simp)
    · rw [if_neg hb] at hl
      have hbag := Option.some.inj hl
      refine ⟨hbag.symm, ?_⟩
      intro hc
      apply hb
      rw [hbag, hc]
      rfl

theorem c7_get_store_spec_witness :
    ([1] : List Int) =
        bagAt (Trie.empty.insert_store [true] (1 : Int)) [true] ∧
      ([1] : List Int) ≠ [] :=
  (c7_get_store_spec (Trie.empty.insert_store [true] (1 : Int))
    [true]).2.1 [1] rfl

/-- C10: a successful `delete_store` preserves the trie's node
structure exactly — at every path the node existence and its ordered
child symbols are unchanged, no node is ever pruned — and only removes
bag entries (every bag of the result is a sublist of the original). -/
theorem c10_delete_preserves_structure {T U : Type} [DecidableEq T]
    [BEq U] (t t' : Trie T U) (p : List T) (st : U)
    (h : t.delete_store p st = some t') :
    (∀ q, childSyms t' q = childSyms t q) ∧
      (∀ q, (bagAt t' q).Sublist (bagAt t q)) := by
  obtain ⟨hsyms, hbag, hframe⟩ := delete_store_some_spec h
  refine ⟨hsyms, ?_⟩
  intro q
  by_cases hq : q = p
  · subst hq
    rw [hbag]
    exact List.filter_sublist _
  · rw [hframe q hq]

theorem c10_delete_preserves_structure_witness :
    childSyms (⟨[], [(true, ⟨[], []⟩)]⟩ : Trie Bool Int) [] =
      childSyms (Trie.empty.insert_store [true] (1 : Int)) [] :=
  (c10_delete_preserves_structure
    (Trie.empty.insert_store [true] (1 : Int))
    (⟨[], [(true, ⟨[], []⟩)]⟩ : Trie Bool Int) [true] 1 (by rfl)).1 []

end Trie

/-- C1 (amended): `deleteStore(path, target)` returns `none` exactly
when no entry equal to the target exists in the bag at the path (in
particular when the path is absent); on success it removes every entry
equal to the target from the terminal bag — all matches, not just the
first — leaving the bag at every other path untouched; `delete(key)`
does the same with a key-only-equal target, removing every entry whose
key equals `key`. -/
theorem c1_delete_removes_all_matches :
    (∀ {T U : Type} [DecidableEq T] [BEq U] (t : Trie T U) (p : List T)
        (st : U),
      (t.delete_store p st = none ↔
        ∀ u ∈ Trie.bagAt t p, (u == st) = false) ∧
      (∀ t', t.delete_store p st = some t' →
        Trie.bagAt t' p =
          (Trie.bagAt t p).filter (fun u => !(u == st)) ∧
        ∀ q, q ≠ p → Trie.bagAt t' q = Trie.bagAt t q)) ∧
    (∀ {K V : Type} [DecidableEq K] (hashFn : K → Nat) (m : HashMap K V)
        (k : K),
      (HashMap.delete hashFn m k = none ↔
        ∀ e ∈ Trie.bagAt m.trie (HashMap.getBits hashFn k),
          (e == (⟨k, none⟩ : KeyValue K V)) = false) ∧
      (∀ m', HashMap.delete hashFn m k = some m' →
        Trie.bagAt m'.trie (HashMap.getBits hashFn k) =
          (Trie.bagAt m.trie (HashMap.getBits hashFn k)).filter
            (fun e => !(e == (⟨k, none⟩ : KeyValue K V))))) := by
  constructor
  · intro T U _ _ t p st
    refine ⟨Trie.delete_store_none_iff t p st, ?_⟩
    intro t' h
    obtain ⟨_, hbag, hframe⟩ := Trie.delete_store_some_spec h
    exact ⟨hbag, hframe⟩
  · intro K V _ hashFn m k
    constructor
    · rw [show HashMap.delete hashFn m k =
          (m.trie.delete_store (HashMap.getBits hashFn k)
            ⟨k, none⟩).map (fun t => ⟨t⟩) from rfl]
      rw [Option.map_eq_none']
      exact Trie.delete_store_none_iff m.trie (HashMap.getBits hashFn k)
        ⟨k, none⟩
    · intro m' h
      rw [show HashMap.delete hashFn m k =
          (m.trie.delete_store (HashMap.getBits hashFn k)
            ⟨k, none⟩).map (fun t => ⟨t⟩) from rfl] at h
      cases hd : m.trie.delete_store (HashMap.getBits hashFn k)
          ⟨k, none⟩ with
      | none =>
        rw [hd] at h
        exact absurd h (by simp)
      | some t' =>
        rw [hd] at h
        obtain rfl := Option.some.inj h
        obtain ⟨_, hbag, _⟩ := Trie.delete_store_some_spec hd
        exact hbag

theorem c1_delete_removes_all_matches_witness :
    Trie.bagAt (⟨[], []⟩ : Trie Bool Int) [] =
      (Trie.bagAt (Trie.empty.insert_store ([] : List Bool) (1 : Int))
        []).filter (fun u => !(u == 1)) :=
  ((c1_delete_removes_all_matches.1
    (Trie.empty.insert_store ([] : List Bool) (1 : Int)) [] 1).2
    ⟨[], []⟩ rfl).1

namespace HashMap

/-- C6: `get` scans the bag at the key's hash path in bag order and
returns the value of the first entry whose key compares equal — the
oldest insertion; since `put` appends without removing an existing
entry with the same key, after two puts of the same key `get` still
answers from the older entry: on a fresh map it returns `v1`, not
necessarily `v2`. -/
theorem c6_get_oldest_match {K V : Type} [DecidableEq K]
    (hashFn : K → Nat) (m : HashMap K V) (k : K) (v1 v2 : V) :
    (get hashFn m k =
      ((Trie.bagAt m.trie (getBits hashFn k)).find?
        (fun kv => decide (k = kv.key))).bind (fun kv => kv.value)) ∧
    (get hashFn (put hashFn (put hashFn m k v1) k v2) k =
      get hashFn (put hashFn m k v1) k) ∧
    (get hashFn (put hashFn (put hashFn (new : HashMap K V) k v1) k v2) k
      = some v1) :=
  ⟨get_eq_bag_scan hashFn m k, get_put_put hashFn m k v1 v2,
    get_put_put_new hashFn k v1 v2⟩

end HashMap

end Prust

